import Mathlib

/-!
Verification of the tor-v3-vanity vanity-address generator.

The definitions below are a shallow embedding of the Rust sources:
`src/onion.rs` (onion encoding), `src/backend/cpu.rs`,
`src/backend/cuda.rs`, `src/backend/hybrid.rs` (the search workers and
their file output) and `src/backend/mod.rs` (backend selection and the
error taxonomy).  Bytes are `Nat` (values < 256 where it matters),
64-bit machine words are `Nat` reduced mod `2 ^ 64`, strings are
`List Char`, and file-system activity is reified as a list of events.
-/

set_option maxRecDepth 4096

/-! ## Bits and bytes -/

/-- The `w`-bit big-endian bit vector of `n` (most significant bit first). -/
def natToBits : Nat → Nat → List Bool
  | 0, _ => []
  | w + 1, n => natToBits w (n / 2) ++ [decide (n % 2 = 1)]

/-- Read a big-endian bit vector back as a number. -/
def bitsToNat (l : List Bool) : Nat :=
  l.foldl (fun a b => 2 * a + (if b then 1 else 0)) 0

theorem natToBits_length (w n : Nat) : (natToBits w n).length = w := by
  induction w generalizing n with
  | zero => rfl
  | succ w ih => simp [natToBits, ih]

theorem bitsToNat_append_bit (l : List Bool) (b : Bool) :
    bitsToNat (l ++ [b]) = 2 * bitsToNat l + (if b then 1 else 0) := by
  simp [bitsToNat, List.foldl_append]

theorem bitsToNat_natToBits {w n : Nat} (h : n < 2 ^ w) :
    bitsToNat (natToBits w n) = n := by
  induction w generalizing n with
  | zero =>
    interval_cases n
    rfl
  | succ w ih =>
    have hdiv : n / 2 < 2 ^ w := by
      have : n < 2 ^ w * 2 := by
        simpa [Nat.pow_succ] using h
      omega
    rw [natToBits, bitsToNat_append_bit, ih hdiv]
    have hm : n % 2 = 0 ∨ n % 2 = 1 := by omega
    rcases hm with h0 | h0 <;> simp [h0] <;> omega

theorem bitsToNat_lt (l : List Bool) : bitsToNat l < 2 ^ l.length := by
  induction l using List.reverseRecOn with
  | nil => simp [bitsToNat]
  | append_singleton l b ih =>
    rw [bitsToNat_append_bit]
    have : l.length + 1 = (l ++ [b]).length := by simp
    rw [← this, Nat.pow_succ]
    rcases b <;> simp <;> omega

theorem natToBits_bitsToNat (l : List Bool) :
    natToBits l.length (bitsToNat l) = l := by
  induction l using List.reverseRecOn with
  | nil => rfl
  | append_singleton l b ih =>
    have hlen : (l ++ [b]).length = l.length + 1 := by simp
    rw [hlen, bitsToNat_append_bit, natToBits]
    have h2 : (2 * bitsToNat l + (if b then 1 else 0)) / 2 = bitsToNat l := by
      rcases b <;> simp <;> omega
    have h3 : decide ((2 * bitsToNat l + (if b then 1 else 0)) % 2 = 1) = b := by
      rcases b <;> simp <;> omega
    rw [h2, h3, ih]

/-- The 8-bit big-endian bit stream of a byte list. -/
def bytesToBits (bs : List Nat) : List Bool :=
  bs.flatMap (natToBits 8)

theorem bytesToBits_nil : bytesToBits [] = [] := rfl

theorem bytesToBits_cons (b : Nat) (bs : List Nat) :
    bytesToBits (b :: bs) = natToBits 8 b ++ bytesToBits bs := by
  simp [bytesToBits]

theorem bytesToBits_length (bs : List Nat) :
    (bytesToBits bs).length = 8 * bs.length := by
  induction bs with
  | nil => rfl
  | cons b bs ih =>
    rw [bytesToBits_cons]
    simp [ih, natToBits_length]
    ring

/-! ## Base32 (RFC 4648 lowercase alphabet, no padding)

Model of the `base32` crate's `encode`/`decode` with
`Alphabet::Rfc4648Lower { padding: false }`: encoding emits one character
per 5-bit group of the input bit stream (the final group zero-padded),
decoding maps each character back to 5 bits (any character outside the
alphabet fails the whole decode) and keeps only the whole bytes. -/

/-- The lowercase RFC 4648 base32 alphabet `a-z2-7`. -/
def b32Alphabet : List Char :=
  ['a', 'b', 'c', 'd', 'e', 'f', 'g', 'h', 'i', 'j', 'k', 'l', 'm',
   'n', 'o', 'p', 'q', 'r', 's', 't', 'u', 'v', 'w', 'x', 'y', 'z',
   '2', '3', '4', '5', '6', '7']

/-- Character for a 5-bit value. -/
def b32Char (v : Nat) : Char :=
  b32Alphabet.getD v 'a'

/-- Value of a character; `none` when it is outside the alphabet. -/
def b32Val (c : Char) : Option Nat :=
  b32Alphabet.indexOf? c

/-- Split a bit stream into 5-bit groups, zero-padding the final group. -/
def chunk5 : List Bool → List Nat
  | b1 :: b2 :: b3 :: b4 :: b5 :: rest => bitsToNat [b1, b2, b3, b4, b5] :: chunk5 rest
  | [] => []
  | l => [bitsToNat (l ++ List.replicate (5 - l.length) false)]

/-- Collect the whole bytes of a bit stream, dropping a trailing partial byte. -/
def chunk8 : List Bool → List Nat
  | b1 :: b2 :: b3 :: b4 :: b5 :: b6 :: b7 :: b8 :: rest =>
      bitsToNat [b1, b2, b3, b4, b5, b6, b7, b8] :: chunk8 rest
  | _ => []

/-- `base32::encode(Rfc4648Lower, bytes)` as a character list. -/
def b32Encode (bs : List Nat) : List Char :=
  (chunk5 (bytesToBits bs)).map b32Char

/-- `base32::decode(Rfc4648Lower, s)`: `none` iff some character is invalid. -/
def b32Decode (s : List Char) : Option (List Nat) :=
  (s.mapM b32Val).map (fun vs => chunk8 (vs.flatMap (natToBits 5)))

theorem chunk5_cons (b1 b2 b3 b4 b5 : Bool) (rest : List Bool) :
    chunk5 (b1 :: b2 :: b3 :: b4 :: b5 :: rest) =
      bitsToNat [b1, b2, b3, b4, b5] :: chunk5 rest := rfl

theorem chunk5_rest_shape (l : List Bool)
    (hno5 : ∀ (b1 b2 b3 b4 b5 : Bool) (rest : List Bool),
      l = b1 :: b2 :: b3 :: b4 :: b5 :: rest → False)
    (hnil : l = [] → False) : 1 ≤ l.length ∧ l.length ≤ 4 := by
  rcases l with _ | ⟨a, _ | ⟨b, _ | ⟨c, _ | ⟨d, _ | ⟨e, t⟩⟩⟩⟩⟩
  · exact absurd rfl hnil
  · simp
  · simp
  · simp
  · simp
  · exact (hno5 a b c d e t rfl).elim

theorem chunk5_rest_eq (l : List Bool)
    (hno5 : ∀ (b1 b2 b3 b4 b5 : Bool) (rest : List Bool),
      l = b1 :: b2 :: b3 :: b4 :: b5 :: rest → False)
    (hnil : l = [] → False) :
    chunk5 l = [bitsToNat (l ++ List.replicate (5 - l.length) false)] := by
  rcases l with _ | ⟨a, _ | ⟨b, _ | ⟨c, _ | ⟨d, _ | ⟨e, t⟩⟩⟩⟩⟩
  · exact absurd rfl hnil
  · rfl
  · rfl
  · rfl
  · rfl
  · exact (hno5 a b c d e t rfl).elim

theorem chunk5_length_of_dvd (l : List Bool) (h : 5 ∣ l.length) :
    (chunk5 l).length = l.length / 5 := by
  induction l using chunk5.induct with
  | case1 b1 b2 b3 b4 b5 rest ih =>
    have h5 : 5 ∣ rest.length := by
      rcases h with ⟨k, hk⟩
      simp at hk
      exact ⟨k - 1, by omega⟩
    rw [chunk5_cons]
    simp [ih h5]
    omega
  | case2 => rfl
  | case3 l hno5 hnil =>
    exfalso
    have := chunk5_rest_shape l hno5 hnil
    rcases h with ⟨k, hk⟩
    omega

theorem chunk5_lt (l : List Bool) : ∀ v ∈ chunk5 l, v < 32 := by
  induction l using chunk5.induct with
  | case1 b1 b2 b3 b4 b5 rest ih =>
    rw [chunk5_cons]
    intro v hv
    rcases List.mem_cons.mp hv with h | h
    · subst h
      have := bitsToNat_lt [b1, b2, b3, b4, b5]
      simpa using this
    · exact ih v h
  | case2 => intro v hv; simp [chunk5] at hv
  | case3 l hno5 hnil =>
    intro v hv
    rw [chunk5_rest_eq l hno5 hnil] at hv
    rcases List.mem_singleton.mp hv with rfl
    have hsh := chunk5_rest_shape l hno5 hnil
    have hlen : (l ++ List.replicate (5 - l.length) false).length = 5 := by
      simp
      omega
    have := bitsToNat_lt (l ++ List.replicate (5 - l.length) false)
    rw [hlen] at this
    simpa using this

theorem list_length_eight {α : Type} (l : List α) (h : l.length = 8) :
    ∃ a1 a2 a3 a4 a5 a6 a7 a8, l = [a1, a2, a3, a4, a5, a6, a7, a8] := by
  rcases l with _ | ⟨a1, _ | ⟨a2, _ | ⟨a3, _ | ⟨a4, _ | ⟨a5, _ | ⟨a6, _ | ⟨a7, _ | ⟨a8, _ | ⟨a9, t⟩⟩⟩⟩⟩⟩⟩⟩⟩ <;>
    first
      | exact ⟨a1, a2, a3, a4, a5, a6, a7, a8, rfl⟩
      | (exfalso; simp at h)
      | (exfalso; simp at h; omega)

theorem flatMap5_chunk5 (l : List Bool) (h : 5 ∣ l.length) :
    (chunk5 l).flatMap (natToBits 5) = l := by
  induction l using chunk5.induct with
  | case1 b1 b2 b3 b4 b5 rest ih =>
    have h5 : 5 ∣ rest.length := by
      rcases h with ⟨k, hk⟩
      simp at hk
      exact ⟨k - 1, by omega⟩
    rw [chunk5_cons]
    have hb : natToBits 5 (bitsToNat [b1, b2, b3, b4, b5]) = [b1, b2, b3, b4, b5] := by
      have := natToBits_bitsToNat [b1, b2, b3, b4, b5]
      simpa using this
    simp [hb, ih h5]
  | case2 => rfl
  | case3 l hno5 hnil =>
    exfalso
    have := chunk5_rest_shape l hno5 hnil
    rcases h with ⟨k, hk⟩
    omega

theorem chunk8_bytesToBits (bs : List Nat) (h : ∀ b ∈ bs, b < 256) :
    chunk8 (bytesToBits bs) = bs := by
  induction bs with
  | nil => rfl
  | cons b bs ih =>
    rw [bytesToBits_cons]
    have hlen : (natToBits 8 b).length = 8 := natToBits_length 8 b
    obtain ⟨a1, a2, a3, a4, a5, a6, a7, a8, he⟩ := list_length_eight _ hlen
    rw [he]
    have hb : bitsToNat [a1, a2, a3, a4, a5, a6, a7, a8] = b := by
      rw [← he]
      exact bitsToNat_natToBits (by simpa using h b (List.mem_cons_self b bs))
    have : chunk8 ([a1, a2, a3, a4, a5, a6, a7, a8] ++ bytesToBits bs) =
        bitsToNat [a1, a2, a3, a4, a5, a6, a7, a8] :: chunk8 (bytesToBits bs) := rfl
    rw [this, hb, ih (fun x hx => h x (List.mem_cons_of_mem b hx))]

theorem b32Val_b32Char : ∀ v : Nat, v < 32 → b32Val (b32Char v) = some v := by
  decide

theorem mapM_map_some {α β : Type} (g : α → β) (f : β → Option α) (l : List α)
    (h : ∀ a ∈ l, f (g a) = some a) : (l.map g).mapM f = some l := by
  induction l with
  | nil => rfl
  | cons a l ih =>
    simp only [List.map_cons, List.mapM_cons, h a (List.mem_cons_self a l),
      ih (fun x hx => h x (List.mem_cons_of_mem a hx))]
    rfl

/-- Round trip of the base32 model: when the bit stream splits evenly into
5-bit groups, decoding an encoding returns the original bytes. -/
theorem b32Decode_b32Encode (bs : List Nat) (hd : 5 ∣ 8 * bs.length)
    (h : ∀ b ∈ bs, b < 256) : b32Decode (b32Encode bs) = some bs := by
  have hbits : 5 ∣ (bytesToBits bs).length := by
    rw [bytesToBits_length]
    exact hd
  unfold b32Decode b32Encode
  rw [mapM_map_some b32Char b32Val _
    (fun v hv => b32Val_b32Char v (chunk5_lt _ v hv))]
  simp [flatMap5_chunk5 _ hbits, chunk8_bytesToBits bs h]

theorem b32Encode_length (bs : List Nat) (hd : 5 ∣ 8 * bs.length) :
    (b32Encode bs).length = 8 * bs.length / 5 := by
  unfold b32Encode
  rw [List.length_map, chunk5_length_of_dvd _ (by rw [bytesToBits_length]; exact hd),
    bytesToBits_length]

theorem b32Char_mem_alphabet (v : Nat) : b32Char v ∈ b32Alphabet := by
  have hsmall : ∀ w : Nat, w < 32 → b32Char w ∈ b32Alphabet := by decide
  rcases Nat.lt_or_ge v 32 with hlt | hge
  · exact hsmall v hlt
  · unfold b32Char
    rw [List.getD_eq_default]
    · decide
    · calc b32Alphabet.length = 32 := rfl
        _ ≤ v := hge

theorem b32Encode_mem_alphabet (bs : List Nat) :
    ∀ c ∈ b32Encode bs, c ∈ b32Alphabet := by
  intro c hc
  rcases List.mem_map.mp hc with ⟨v, _, rfl⟩
  exact b32Char_mem_alphabet v

/-! ## Keccak / SHA3-256 (the `sha3` crate's `Sha3_256`)

The round constants and rotation offsets are the standard Keccak-f[1600]
tables; lanes are 64-bit words held as `Nat` reduced mod `2 ^ 64`. -/

/-- `2 ^ 64`, the modulus of a 64-bit machine word. -/
def M64 : Nat := 2 ^ 64

def xor64 (a b : Nat) : Nat := Nat.xor a b

def and64 (a b : Nat) : Nat := Nat.land a b

def not64 (a : Nat) : Nat := Nat.xor a (M64 - 1)

def rotl64 (a n : Nat) : Nat := Nat.lor (a * 2 ^ n % M64) (a / 2 ^ (64 - n))

/-- One step of the degree-8 LFSR of FIPS 202 section 3.2.5 (polynomial
`x^8 + x^6 + x^5 + x^4 + 1`, byte form `0x71` after the shift): the output
bit and the next register value. -/
def lfsrStep (r : Nat) : Bool × Nat :=
  (decide (r % 2 = 1), if 128 ≤ r then Nat.xor (r * 2 % 256) 0x71 else r * 2 % 256)

/-- One round constant from the LFSR register: bit `2 ^ j - 1` of the lane is
the j-th LFSR output, `j = 0..6`. -/
def rcFromLfsr (st : Nat) : Nat × Nat :=
  (List.range 7).foldl
    (fun acc j =>
      let s := lfsrStep acc.2
      (if s.1 then Nat.xor acc.1 (2 ^ (2 ^ j - 1)) else acc.1, s.2))
    (0, st)

/-- The 24 Keccak-f[1600] round constants, generated from the LFSR seeded
with 1 (so `keccakRC` starts `0x1, 0x8082, ...`). -/
def keccakRC : List Nat :=
  ((List.range 24).foldl
    (fun (acc : List Nat × Nat) _ =>
      let s := rcFromLfsr acc.2
      (acc.1 ++ [s.1], s.2))
    ([], 1)).1

/-- Keccak rotation offsets indexed by lane `x + 5 * y`, generated by the
standard walk: starting from `(1, 0)`, lane `(x, y)` gets
`(t + 1)(t + 2) / 2 mod 64` and the walk moves to `(y, (2x + 3y) mod 5)`. -/
def keccakRot : List Nat :=
  ((List.range 24).foldl
    (fun (acc : List Nat × Nat × Nat) t =>
      let tbl := acc.1
      let x := acc.2.1
      let y := acc.2.2
      (tbl.set (x + 5 * y) ((t + 1) * (t + 2) / 2 % 64), y, (2 * x + 3 * y) % 5))
    (List.replicate 25 0, 1, 0)).1

def keccakTheta (A : List Nat) : List Nat :=
  let C := (List.range 5).map (fun x =>
    xor64 (xor64 (xor64 (xor64 (A.getD x 0) (A.getD (x + 5) 0)) (A.getD (x + 10) 0))
      (A.getD (x + 15) 0)) (A.getD (x + 20) 0))
  let D := (List.range 5).map (fun x =>
    xor64 (C.getD ((x + 4) % 5) 0) (rotl64 (C.getD ((x + 1) % 5) 0) 1))
  (List.range 25).map (fun i => xor64 (A.getD i 0) (D.getD (i % 5) 0))

def keccakRhoPi (A : List Nat) : List Nat :=
  (List.range 25).foldl (fun B i =>
    let x := i % 5
    let y := i / 5
    let j := y + 5 * ((2 * x + 3 * y) % 5)
    B.set j (rotl64 (A.getD i 0) (keccakRot.getD i 0))) (List.replicate 25 0)

def keccakChi (A : List Nat) : List Nat :=
  (List.range 25).map (fun i =>
    let x := i % 5
    let y := i / 5
    xor64 (A.getD i 0) (and64 (not64 (A.getD ((x + 1) % 5 + 5 * y) 0))
      (A.getD ((x + 2) % 5 + 5 * y) 0)))

def keccakRound (A : List Nat) (rc : Nat) : List Nat :=
  let B := keccakChi (keccakRhoPi (keccakTheta A))
  B.set 0 (xor64 (B.getD 0 0) rc)

def keccakF (A : List Nat) : List Nat := keccakRC.foldl keccakRound A

/-- Read 8 bytes as a little-endian 64-bit lane. -/
def laneOfBytes (bs : List Nat) : Nat := bs.foldr (fun b acc => b + 256 * acc) 0

/-- Write a 64-bit lane as 8 little-endian bytes. -/
def laneToBytes (n : Nat) : List Nat := (List.range 8).map (fun i => n / 2 ^ (8 * i) % 256)

def sha3Absorb (st : List Nat) (block : List Nat) : List Nat :=
  let lanes := (List.range 17).map (fun i => laneOfBytes ((block.drop (8 * i)).take 8))
  keccakF ((List.range 25).map (fun i =>
    if i < 17 then xor64 (st.getD i 0) (lanes.getD i 0) else st.getD i 0))

/-- SHA-3 padding (domain byte `0x06`, final bit `0x80`) to a 136-byte rate. -/
def sha3Pad (msg : List Nat) : List Nat :=
  let padLen := 136 - msg.length % 136
  if padLen = 1 then msg ++ [134]
  else msg ++ [6] ++ List.replicate (padLen - 2) 0 ++ [128]

/-- `sha3::Sha3_256::digest` over a byte list. -/
def sha3_256 (msg : List Nat) : List Nat :=
  let padded := sha3Pad msg
  let blocks := (List.range (padded.length / 136)).map
    (fun i => (padded.drop (136 * i)).take 136)
  let st := blocks.foldl sha3Absorb (List.replicate 25 0)
  laneToBytes (st.getD 0 0) ++ laneToBytes (st.getD 1 0) ++
    laneToBytes (st.getD 2 0) ++ laneToBytes (st.getD 3 0)

theorem laneToBytes_length (n : Nat) : (laneToBytes n).length = 8 := by
  simp [laneToBytes]

theorem laneToBytes_lt (n : Nat) : ∀ b ∈ laneToBytes n, b < 256 := by
  intro b hb
  rcases List.mem_map.mp hb with ⟨i, _, rfl⟩
  exact Nat.mod_lt _ (by omega)

theorem sha3_256_length (msg : List Nat) : (sha3_256 msg).length = 32 := by
  simp [sha3_256, laneToBytes_length]

theorem sha3_256_lt (msg : List Nat) : ∀ b ∈ sha3_256 msg, b < 256 := by
  intro b hb
  unfold sha3_256 at hb
  simp only [List.mem_append] at hb
  rcases hb with ((h | h) | h) | h <;> exact laneToBytes_lt _ b h

/-! ## Onion encoding (`src/onion.rs`) -/

/-- The checksum input tag `".onion checksum"` as bytes. -/
def onionChecksumTag : List Nat := ".onion checksum".toList.map Char.toNat

/-- The two checksum bytes: `SHA3-256(".onion checksum" || pubkey || 3)[0..2]`
(`onion.rs` lines 11-18). -/
def onionChecksum (pubkey : List Nat) : List Nat :=
  (sha3_256 (onionChecksumTag ++ pubkey ++ [3])).take 2

/-- `pubkey_to_onion` (`onion.rs` lines 10-25): base32 of the 35-byte buffer
`pubkey || checksum || 3`, then `".onion"`. -/
def pubkey_to_onion (pubkey : List Nat) : List Char :=
  b32Encode (pubkey ++ onionChecksum pubkey ++ [3]) ++ ".onion".toList

theorem onionChecksum_length (pubkey : List Nat) : (onionChecksum pubkey).length = 2 := by
  unfold onionChecksum
  rw [List.length_take, sha3_256_length]
  omega

theorem onionChecksum_lt (pubkey : List Nat) : ∀ b ∈ onionChecksum pubkey, b < 256 := by
  intro b hb
  exact sha3_256_lt _ b (List.mem_of_mem_take hb)

theorem onion_buffer_length (pubkey : List Nat) (h : pubkey.length = 32) :
    (pubkey ++ onionChecksum pubkey ++ [3]).length = 35 := by
  simp [h, onionChecksum_length]

/-- The 56-character name portion of an onion address. -/
def onionName (pubkey : List Nat) : List Char :=
  b32Encode (pubkey ++ onionChecksum pubkey ++ [3])

theorem onionName_length (pubkey : List Nat) (h : pubkey.length = 32) :
    (onionName pubkey).length = 56 := by
  unfold onionName
  rw [b32Encode_length _ (by rw [onion_buffer_length pubkey h]; decide),
    onion_buffer_length pubkey h]

theorem pubkey_to_onion_length (pubkey : List Nat) (h : pubkey.length = 32) :
    (pubkey_to_onion pubkey).length = 62 := by
  unfold pubkey_to_onion
  rw [List.length_append]
  have := onionName_length pubkey h
  unfold onionName at this
  rw [this]
  decide

theorem onionName_decode (pubkey : List Nat) (h : pubkey.length = 32)
    (hlt : ∀ b ∈ pubkey, b < 256) :
    b32Decode (onionName pubkey) = some (pubkey ++ onionChecksum pubkey ++ [3]) := by
  unfold onionName
  refine b32Decode_b32Encode _ (by rw [onion_buffer_length pubkey h]; decide) ?_
  intro b hb
  simp only [List.append_assoc, List.mem_append] at hb
  rcases hb with h1 | h1 | h1
  · exact hlt b h1
  · exact onionChecksum_lt pubkey b h1
  · rcases List.mem_singleton.mp h1 with rfl
    omega

theorem b32Encode_five_zeros (l : List Nat) :
    b32Encode (0 :: 0 :: 0 :: 0 :: 0 :: l) =
      'a' :: 'a' :: 'a' :: 'a' :: 'a' :: 'a' :: 'a' :: 'a' :: b32Encode l := by
  unfold b32Encode
  rw [bytesToBits_cons, bytesToBits_cons, bytesToBits_cons, bytesToBits_cons,
    bytesToBits_cons]
  have h0 : natToBits 8 0 = [false, false, false, false, false, false, false, false] := by
    decide
  rw [h0]
  simp only [List.cons_append, List.nil_append]
  rw [chunk5_cons, chunk5_cons, chunk5_cons, chunk5_cons, chunk5_cons, chunk5_cons,
    chunk5_cons, chunk5_cons]
  simp [bitsToNat, b32Char, b32Alphabet]

/-- The onion address of the all-zero public key starts with eight `a`s. -/
theorem onionZero_head :
    ∃ t, pubkey_to_onion (List.replicate 32 0) =
      'a' :: 'a' :: 'a' :: 'a' :: 'a' :: 'a' :: 'a' :: 'a' :: t := by
  have hz : List.replicate 32 (0 : Nat) ++
      onionChecksum (List.replicate 32 0) ++ [3] =
      0 :: 0 :: 0 :: 0 :: 0 :: (List.replicate 27 0 ++
        onionChecksum (List.replicate 32 0) ++ [3]) := by
    simp [List.replicate_succ]
  unfold pubkey_to_onion
  rw [hz, b32Encode_five_zeros]
  exact ⟨_, rfl⟩

/-! ## SHA-512 (the `sha2` crate's `Sha512`)

Round constants and initial state are derived, as in the standard, from the
fractional parts of cube and square roots of the first primes. -/

def rotr64 (a n : Nat) : Nat := Nat.lor (a / 2 ^ n) (a * 2 ^ (64 - n) % M64)

def shr64 (a n : Nat) : Nat := a / 2 ^ n

def icbrtGo (n : Nat) : Nat → Nat → Nat → Nat
  | lo, _, 0 => lo
  | lo, hi, fuel + 1 =>
    if hi ≤ lo + 1 then lo
    else
      let mid := (lo + hi) / 2
      if mid ^ 3 ≤ n then icbrtGo n mid hi fuel else icbrtGo n lo mid fuel

/-- Integer cube root (floor), by bounded bisection. -/
def icbrt (n : Nat) : Nat := icbrtGo n 0 (n + 1) 400

/-- The first 80 primes. -/
def sha512Primes : List Nat :=
  [2, 3, 5, 7, 11, 13, 17, 19, 23, 29, 31, 37, 41, 43, 47, 53, 59, 61, 67, 71,
   73, 79, 83, 89, 97, 101, 103, 107, 109, 113, 127, 131, 137, 139, 149, 151,
   157, 163, 167, 173, 179, 181, 191, 193, 197, 199, 211, 223, 227, 229, 233,
   239, 241, 251, 257, 263, 269, 271, 277, 281, 283, 293, 307, 311, 313, 317,
   331, 337, 347, 349, 353, 359, 367, 373, 379, 383, 389, 397, 401, 409]

/-- The 80 SHA-512 round constants: first 64 fractional-part bits of the cube
roots of the first 80 primes. -/
def sha512K : List Nat := sha512Primes.map (fun p => icbrt (p * 2 ^ 192) % M64)

/-- The SHA-512 initial hash: fractional-part bits of the square roots of the
first 8 primes. -/
def sha512H0 : List Nat := (sha512Primes.take 8).map (fun p => Nat.sqrt (p * 2 ^ 128) % M64)

def bigSigma0 (x : Nat) : Nat := xor64 (xor64 (rotr64 x 28) (rotr64 x 34)) (rotr64 x 39)

def bigSigma1 (x : Nat) : Nat := xor64 (xor64 (rotr64 x 14) (rotr64 x 18)) (rotr64 x 41)

def smallSigma0 (x : Nat) : Nat := xor64 (xor64 (rotr64 x 1) (rotr64 x 8)) (shr64 x 7)

def smallSigma1 (x : Nat) : Nat := xor64 (xor64 (rotr64 x 19) (rotr64 x 61)) (shr64 x 6)

def chF (e f g : Nat) : Nat := xor64 (and64 e f) (and64 (not64 e) g)

def majF (a b c : Nat) : Nat := xor64 (xor64 (and64 a b) (and64 a c)) (and64 b c)

/-- Read 8 bytes as a big-endian 64-bit word. -/
def word64BE (bs : List Nat) : Nat := bs.foldl (fun acc b => acc * 256 + b) 0

/-- Message schedule: extend the 16 block words by `n` more words. -/
def sha512Extend (w : List Nat) : Nat → List Nat
  | 0 => w
  | n + 1 =>
    let w' := sha512Extend w n
    let t := 16 + n
    w' ++ [(smallSigma1 (w'.getD (t - 2) 0) + w'.getD (t - 7) 0 +
      smallSigma0 (w'.getD (t - 15) 0) + w'.getD (t - 16) 0) % M64]

def sha512Compress (h : List Nat) (block : List Nat) : List Nat :=
  let w0 := (List.range 16).map (fun i => word64BE ((block.drop (8 * i)).take 8))
  let w := sha512Extend w0 64
  let step := fun (st : List Nat) (t : Nat) =>
    let a := st.getD 0 0
    let b := st.getD 1 0
    let c := st.getD 2 0
    let d := st.getD 3 0
    let e := st.getD 4 0
    let f := st.getD 5 0
    let g := st.getD 6 0
    let hh := st.getD 7 0
    let t1 := (hh + bigSigma1 e + chF e f g + (sha512K.getD t 0) + w.getD t 0) % M64
    let t2 := (bigSigma0 a + majF a b c) % M64
    [(t1 + t2) % M64, a, b, c, (d + t1) % M64, e, f, g]
  let st := (List.range 80).foldl step h
  (List.range 8).map (fun i => (h.getD i 0 + st.getD i 0) % M64)

/-- Big-endian 16-byte length field of a bit count. -/
def len128BE (bits : Nat) : List Nat :=
  (List.range 16).map (fun i => bits / 2 ^ (8 * (15 - i)) % 256)

def sha512Pad (msg : List Nat) : List Nat :=
  let zeros := (128 + 111 - msg.length % 128) % 128
  msg ++ [128] ++ List.replicate zeros 0 ++ len128BE (8 * msg.length)

/-- Write a 64-bit word as 8 big-endian bytes. -/
def word64ToBytesBE (n : Nat) : List Nat :=
  (List.range 8).map (fun i => n / 2 ^ (8 * (7 - i)) % 256)

/-- `sha2::Sha512::digest` over a byte list. -/
def sha512 (msg : List Nat) : List Nat :=
  let padded := sha512Pad msg
  let blocks := (List.range (padded.length / 128)).map
    (fun i => (padded.drop (128 * i)).take 128)
  let h := blocks.foldl sha512Compress sha512H0
  h.flatMap word64ToBytesBE

theorem sha512Compress_length (h block : List Nat) :
    (sha512Compress h block).length = 8 := by
  simp [sha512Compress]

theorem word64ToBytesBE_length (n : Nat) : (word64ToBytesBE n).length = 8 := by
  simp [word64ToBytesBE]

theorem flatMap_word64_length (h : List Nat) :
    (h.flatMap word64ToBytesBE).length = 8 * h.length := by
  induction h with
  | nil => rfl
  | cons a h ih =>
    simp only [List.flatMap_cons, List.length_append, List.length_cons,
      word64ToBytesBE_length, ih]
    ring

theorem sha512_length (msg : List Nat) : (sha512 msg).length = 64 := by
  have hfold : ∀ (blocks : List (List Nat)) (h0 : List Nat), h0.length = 8 →
      (blocks.foldl sha512Compress h0).length = 8 := by
    intro blocks
    induction blocks with
    | nil => intro h0 hh; simpa using hh
    | cons b bs ih =>
      intro h0 _
      simpa using ih (sha512Compress h0 b) (sha512Compress_length h0 b)
  unfold sha512
  rw [flatMap_word64_length, hfold _ _ (by decide)]

/-! ## Key material and file events

Worker bodies in `cpu.rs`, `cuda.rs` and `hybrid.rs` are embedded as pure
functions of the drawn seed and the Ed25519 public key derived from it
(`SigningKey::from_bytes(&seed).verifying_key().to_bytes()` is kept
abstract: the embedding quantifies over the derived 32 public-key bytes).
File-system activity and result-channel sends are reified as `FsEvent`
lists; fallible `create_dir_all`/`File::create` calls are driven by
explicit outcome flags. -/

/-- A string, as the Rust code's `String`/`&str`. -/
abbrev Str := List Char

/-- `FILE_PREFIX` (`lib.rs` line 16): the 32-byte secret-key tag. -/
def FILE_PREFIX : List Nat :=
  "== ed25519v1-secret: type0 ==".toList.map Char.toNat ++ [0, 0, 0]

/-- Modelled from the spec: `PUBKEY_PREFIX` is imported by `cpu.rs` and
`external_cuda.rs` but its definition is not among the staged sources;
spec section 6 fixes the 32-byte public-key tag. -/
def PUBKEY_PREFIX : List Nat :=
  "== ed25519v1-public: type0 ==".toList.map Char.toNat ++ [0, 0, 0]

/-- The Tor expanded secret key (`cpu.rs` lines 182-189): `SHA-512(seed)`
with clamping of bytes 0 and 31. -/
def torExpandedSecret (seed : List Nat) : List Nat :=
  let h := sha512 seed
  let h1 := h.set 0 (Nat.land (h.getD 0 0) 248)
  h1.set 31 (Nat.lor (Nat.land (h1.getD 31 0) 127) 64)

theorem torExpandedSecret_length (seed : List Nat) :
    (torExpandedSecret seed).length = 64 := by
  simp [torExpandedSecret, sha512_length]

theorem FILE_PREFIX_length : FILE_PREFIX.length = 32 := by decide

theorem PUBKEY_PREFIX_length : PUBKEY_PREFIX.length = 32 := by decide

/-- `ed25519_dalek::SigningKey::to_keypair_bytes`: the 32 seed bytes then
the 32 verifying-key bytes. -/
def to_keypair_bytes (seed pubkey : List Nat) : List Nat := seed ++ pubkey

/-- `s.trim_end_matches(".onion")`: repeatedly strip the suffix. -/
def trimOnionSuffix (s : Str) : Str :=
  if h : ".onion".toList.isSuffixOf s then trimOnionSuffix (s.take (s.length - 6)) else s
termination_by s.length
decreasing_by
  have hsuf : ".onion".toList <:+ s := List.isSuffixOf_iff_suffix.mp h
  have h6 : 6 ≤ s.length := by
    have := hsuf.length_le
    simpa using this
  simp
  omega

/-- `str::contains` as a substring test. -/
def strContainsSub (w : Str) : Str → Bool
  | [] => w.isEmpty
  | c :: rest => w.isPrefixOf (c :: rest) || strContainsSub w rest

/-- A file-system or result-channel action of a worker; paths are component
lists relative to nothing (the output directory is the first components). -/
inductive FsEvent where
  | mkdirAll (path : List Str)
  | write (path : List Str) (content : List Nat)
  | send (pfx : Str) (onion : Str) (keyPath : List Str)
deriving DecidableEq

/-- Success of the fallible file-system calls inside a CPU hit
(`create_dir_all`, then one `File::create` per file). -/
structure FsOutcome where
  mkdirOk : Bool
  hostnameOk : Bool
  pubOk : Bool
  secOk : Bool
deriving DecidableEq

def FsOutcome.allOk : FsOutcome := ⟨true, true, true, true⟩

/-- `hostname` file content: the onion address and a newline. -/
def hostnameContent (onion : Str) : List Nat := onion.map Char.toNat ++ [10]

/-- The file and send actions of a CPU-backend hit (`cpu.rs` lines 158-203):
a directory named after the onion address without `.onion`, the `hostname`,
`hs_ed25519_public_key` and `hs_ed25519_secret_key` files, the
`authorized_clients` directory, then the `FoundKey` send.  Nothing happens
when `create_dir_all` fails; a failed `File::create` skips only that file. -/
def cpuHitEvents (outputDir : List Str) (seed pubkey : List Nat) (pfx : Str)
    (fs : FsOutcome) : List FsEvent :=
  let onion := pubkey_to_onion pubkey
  let hsDir := outputDir ++ [trimOnionSuffix onion]
  if fs.mkdirOk then
    FsEvent.mkdirAll hsDir ::
      ((if fs.hostnameOk then
          [FsEvent.write (hsDir ++ ["hostname".toList]) (hostnameContent onion)]
        else []) ++
       (if fs.pubOk then
          [FsEvent.write (hsDir ++ ["hs_ed25519_public_key".toList])
            (PUBKEY_PREFIX ++ pubkey)]
        else []) ++
       (if fs.secOk then
          [FsEvent.write (hsDir ++ ["hs_ed25519_secret_key".toList])
            (FILE_PREFIX ++ torExpandedSecret seed)]
        else []) ++
       [FsEvent.mkdirAll (hsDir ++ ["authorized_clients".toList]),
        FsEvent.send pfx onion hsDir])
  else []

/-- The scan over the remaining set (`cpu.rs` lines 134-141): the first
remaining pattern the address starts with. -/
def findMatch (remaining : List Str) (onion : Str) : Option Str :=
  remaining.find? (fun p => p.isPrefixOf onion)

/-- The contains-filter (`cpu.rs` lines 145-151): an already-found hit is
dropped when a required word is missing from the lowercased address. -/
def applyContains (containsWords : List Str) (onion : Str) (found : Option Str) :
    Option Str :=
  if found.isSome && !containsWords.isEmpty then
    if containsWords.all (fun w => strContainsSub w (onion.map Char.toLower)) then found
    else none
  else found

/-- One CPU-backend candidate (`cpu.rs` lines 117-206) given the drawn seed
and the public key derived from it: scan, filter, claim-by-remove, write,
send.  Returns the new remaining set and the emitted events. -/
def cpuCandidate (containsWords : List Str) (outputDir : List Str)
    (remaining : List Str) (seed pubkey : List Nat) (fs : FsOutcome) :
    List Str × List FsEvent :=
  let onion := pubkey_to_onion pubkey
  match applyContains containsWords onion (findMatch remaining onion) with
  | none => (remaining, [])
  | some pfx => (remaining.erase pfx, cpuHitEvents outputDir seed pubkey pfx fs)

/-- A hybrid CPU-worker hit (`hybrid.rs` lines 258-273): one file at
`output_dir.join(&onion)` holding `FILE_PREFIX` and `to_keypair_bytes`,
then the send.  No directory, no `hostname`, no split key files. -/
def hybridHitEvents (outputDir : List Str) (seed pubkey : List Nat) (pfx : Str)
    (createOk : Bool) : List FsEvent :=
  let onion := pubkey_to_onion pubkey
  let keyPath := outputDir ++ [onion]
  if createOk then
    [FsEvent.write keyPath (FILE_PREFIX ++ to_keypair_bytes seed pubkey),
     FsEvent.send pfx onion keyPath]
  else []

/-- One hybrid CPU-worker candidate (`hybrid.rs` lines 236-276). -/
def hybridCandidate (outputDir : List Str) (remaining : List Str)
    (seed pubkey : List Nat) (createOk : Bool) : List Str × List FsEvent :=
  let onion := pubkey_to_onion pubkey
  match findMatch remaining onion with
  | none => (remaining, [])
  | some pfx => (remaining.erase pfx, hybridHitEvents outputDir seed pubkey pfx createOk)

/-- A CUDA hit's file and send actions (`cuda.rs` lines 358-371): one file at
`output_dir.join(&onion)` with `FILE_PREFIX` and `to_keypair_bytes` of the
device-reported bytes, then the send. -/
def cudaHitEvents (outputDir : List Str) (outBytes pubkey : List Nat) (pfx : Str)
    (createOk : Bool) : List FsEvent :=
  let onion := pubkey_to_onion pubkey
  let keyPath := outputDir ++ [onion]
  if createOk then
    [FsEvent.write keyPath (FILE_PREFIX ++ to_keypair_bytes outBytes pubkey),
     FsEvent.send pfx onion keyPath]
  else []

/-- Host processing of one device-reported success (`cuda.rs` lines 332-371):
the host re-derives the key from the 32 reported bytes (`pubkey` is the
verifying key of `SigningKey::from_bytes(&out)`), then unconditionally
removes `prefixes[i]` from the remaining set, writes the key file and sends
the `FoundKey` — the re-derived address is never compared against the
pattern. -/
def cudaProcessHit (prefixes : List Str) (i : Nat) (outBytes pubkey : List Nat)
    (remaining : List Str) (outputDir : List Str) (createOk : Bool) :
    List Str × List FsEvent :=
  let pfx := prefixes.getD i []
  (remaining.erase pfx, cudaHitEvents outputDir outBytes pubkey pfx createOk)

/-- The per-batch counter update of a GPU worker (`cuda.rs` line 375). -/
def cudaBatchExamined (threads blocks counter : Nat) : Nat :=
  counter + threads * blocks

/-! ## Pattern validation, error taxonomy and run loops -/

/-- The error taxonomy (`mod.rs` lines 27-43). -/
inductive GeneratorError where
  | Cuda (msg : Str)
  | Io
  | InvalidPrefix (p : Str)
  | Stopped
  | Channel (msg : Str)
deriving DecidableEq

/-- The pre-flight test of one pattern (`cpu.rs` lines 67-76, identically in
`cuda.rs` and `hybrid.rs`): base32-decode the pattern with `"aa"` appended. -/
def prefixValid (p : Str) : Bool := (b32Decode (p ++ ['a', 'a'])).isSome

/-- The first pattern failing validation, if any. -/
def findInvalid (ps : List Str) : Option Str := ps.find? (fun p => !(prefixValid p))

/-- A candidate drawn by a CPU worker: the random seed, the public key
derived from it, and the outcome of the hit's file-system calls. -/
structure Candidate where
  seed : List Nat
  pubkey : List Nat
  fs : FsOutcome

/-- One iteration of the CPU backend's outer loop (`cpu.rs` lines 100-223):
whether a stop signal is pending on `stop_rx`, and the batch of candidates
processed this round (one linearization of the parallel batch). -/
structure CpuIter where
  stopSignal : Bool
  batch : List Candidate

/-- The shared state of a CPU-backend run: the remaining set, the stop flag,
the examined counter, the emitted events, and the `keys_checked` values of
the progress samples sent so far. -/
structure CpuState where
  remaining : List Str
  stopped : Bool
  counter : Nat
  events : List FsEvent
  samples : List Nat

/-- One candidate inside the parallel batch (`cpu.rs` lines 117-206): skip
everything when stopped, otherwise process the candidate and increment the
shared counter by one. -/
def cpuBatchStep (containsWords : List Str) (outputDir : List Str)
    (st : CpuState) (c : Candidate) : CpuState :=
  if st.stopped then st
  else
    let r := cpuCandidate containsWords outputDir st.remaining c.seed c.pubkey c.fs
    { st with remaining := r.1, events := st.events ++ r.2, counter := st.counter + 1 }

/-- The CPU backend's outer loop (`cpu.rs` lines 100-223): consume a pending
stop signal (set the flag and break), break when stopped or when the set is
empty, otherwise run the batch and send one progress sample reading the
shared counter. -/
def cpuLoop (containsWords : List Str) (outputDir : List Str) :
    CpuState → List CpuIter → CpuState
  | st, [] => st
  | st, it :: rest =>
    if it.stopSignal then { st with stopped := true }
    else if st.stopped then st
    else if st.remaining.isEmpty then st
    else
      let st1 := it.batch.foldl (cpuBatchStep containsWords outputDir) st
      cpuLoop containsWords outputDir { st1 with samples := st1.samples ++ [st1.counter] } rest

def initCpuState (ps : List Str) : CpuState := ⟨ps, false, 0, [], []⟩

/-- `CpuBackend::generate_with_filter` (`cpu.rs` lines 57-231): validate all
patterns first, run the loop, and return `Stopped` exactly when the stop
flag was set — the final check (lines 226-230) does not consult the
remaining set. -/
def cpu_generate (ps containsWords : List Str) (outputDir : List Str)
    (iters : List CpuIter) : Except GeneratorError Unit × CpuState :=
  match findInvalid ps with
  | some p => (Except.error (GeneratorError.InvalidPrefix p), initCpuState ps)
  | none =>
    let fin := cpuLoop containsWords outputDir (initCpuState ps) iters
    (if fin.stopped then Except.error GeneratorError.Stopped else Except.ok (), fin)

/-- The CUDA backend's final result (`cuda.rs` lines 199-207): a worker
error wins, then `Stopped` only when stopped with a non-empty remaining
set, else success. -/
def cuda_final_result (gpuError : Option Str) (stopped : Bool)
    (remaining : List Str) : Except GeneratorError Unit :=
  match gpuError with
  | some e => Except.error (GeneratorError.Cuda e)
  | none =>
    if stopped && !remaining.isEmpty then Except.error GeneratorError.Stopped
    else Except.ok ()

/-- The hybrid backend's final result (`hybrid.rs` lines 178-182). -/
def hybrid_final_result (stopped : Bool) (remaining : List Str) :
    Except GeneratorError Unit :=
  if stopped && !remaining.isEmpty then Except.error GeneratorError.Stopped
  else Except.ok ()

/-! ## Backend selection (`mod.rs`) -/

/-- The selected strategy. -/
inductive BackendChoice where
  | Cpu (threads : Nat)
  | Cuda
  | Hybrid
deriving DecidableEq

/-- `select_backend_auto` (`mod.rs` lines 178-208): with the `cuda` feature
compiled in, try the hybrid probe, then the CUDA probe, then fall back to
the CPU backend; without the feature go straight to the CPU backend.  The
probes' error strings are only printed.  Selection builds a `Backend` value
and never starts a search. -/
def select_backend_auto (cudaFeature : Bool) (hybridProbe cudaProbe : Except Str Unit)
    (cpuThreads : Nat) : BackendChoice :=
  if cudaFeature then
    match hybridProbe with
    | Except.ok _ => BackendChoice.Hybrid
    | Except.error _ =>
      match cudaProbe with
      | Except.ok _ => BackendChoice.Cuda
      | Except.error _ => BackendChoice.Cpu cpuThreads
  else BackendChoice.Cpu cpuThreads

/-! ## The claim interleaving model (`cpu.rs` lines 134-156, `hybrid.rs`
lines 247-272)

Each worker holds one candidate address and runs three atomic steps, the
lock-granularity of the source: the scan of the remaining set (one lock
acquisition), the removal (a second, separate lock acquisition), and the
result send.  A schedule interleaves worker indices arbitrarily. -/

structure WorkerState where
  pc : Nat
  found : Option Str
deriving DecidableEq

structure ClaimState where
  set : List Str
  workers : List WorkerState
  sent : List (Nat × Str)
deriving DecidableEq

/-- One atomic step of worker `i` over its candidate address
`cands.getD i []`. -/
def claimStep (cands : List Str) (s : ClaimState) (i : Nat) : ClaimState :=
  match s.workers[i]? with
  | none => s
  | some w =>
    if w.pc = 0 then
      { s with workers := s.workers.set i ⟨1, findMatch s.set (cands.getD i [])⟩ }
    else if w.pc = 1 then
      match w.found with
      | some p => { s with set := s.set.erase p, workers := s.workers.set i ⟨2, w.found⟩ }
      | none => { s with workers := s.workers.set i ⟨2, none⟩ }
    else if w.pc = 2 then
      match w.found with
      | some p => { s with sent := s.sent ++ [(i, p)], workers := s.workers.set i ⟨3, w.found⟩ }
      | none => { s with workers := s.workers.set i ⟨3, none⟩ }
    else s

def initClaimState (cands init : List Str) : ClaimState :=
  ⟨init, List.replicate cands.length ⟨0, none⟩, []⟩

/-- Run a schedule of worker steps from the initial state. -/
def claimRun (cands init : List Str) (sched : List Nat) : ClaimState :=
  sched.foldl (claimStep cands) (initClaimState cands init)

/-- Invariant of the claim interleaving model: set members come from the
initial set, any found pattern matches its worker's own candidate and was
initially present, every sent entry does too, a sent entry's worker has
finished, and no worker appears twice among the sends. -/
def ClaimInv (cands init : List Str) (s : ClaimState) : Prop :=
  (∀ q ∈ s.set, q ∈ init) ∧
  (∀ i w, s.workers[i]? = some w → ∀ p, w.found = some p →
    p.isPrefixOf (cands.getD i []) = true ∧ p ∈ init) ∧
  (∀ e ∈ s.sent, e.2.isPrefixOf (cands.getD e.1 []) = true ∧ e.2 ∈ init) ∧
  (∀ e ∈ s.sent, ∃ w, s.workers[e.1]? = some w ∧ w.pc = 3) ∧
  (s.sent.map Prod.fst).Nodup

theorem claimInv_init (cands init : List Str) :
    ClaimInv cands init (initClaimState cands init) := by
  refine ⟨fun q hq => hq, ?_, ?_, ?_, ?_⟩
  · intro i w hw p hp
    simp only [initClaimState, List.getElem?_replicate] at hw
    rcases Nat.lt_or_ge i cands.length with hlt | hge
    · rw [if_pos hlt] at hw
      cases hw
      cases hp
    · rw [if_neg (by omega)] at hw
      cases hw
  · intro e he
    simp [initClaimState] at he
  · intro e he
    simp [initClaimState] at he
  · simp [initClaimState]

theorem claimInv_step (cands init : List Str) (s : ClaimState) (i : Nat)
    (hs : ClaimInv cands init s) : ClaimInv cands init (claimStep cands s i) := by
  obtain ⟨hset, hworker, hsent, hdone, hnodup⟩ := hs
  cases hw : s.workers[i]? with
  | none =>
    simp only [claimStep, hw]
    exact ⟨hset, hworker, hsent, hdone, hnodup⟩
  | some w =>
    have hwlen : i < s.workers.length := (List.getElem?_eq_some_iff.mp hw).fst
    have hnosent : w.pc ≠ 3 → ∀ e ∈ s.sent, e.1 ≠ i := by
      intro hpc e he hei
      rcases hdone e he with ⟨w', hw', hpc'⟩
      rw [hei, hw] at hw'
      cases hw'
      exact hpc hpc'
    simp only [claimStep, hw]
    by_cases h0 : w.pc = 0
    · rw [if_pos h0]
      refine ⟨hset, ?_, hsent, ?_, hnodup⟩
      · intro j w' hw' p hp
        by_cases hij : i = j
        · subst hij
          rw [List.getElem?_set_self hwlen] at hw'
          cases hw'
          simp only at hp
          have hfind : List.find? (fun q => q.isPrefixOf (cands.getD i [])) s.set = some p := by
            simpa [findMatch] using hp
          exact ⟨by simpa using List.find?_some hfind, hset p (List.mem_of_find?_eq_some hfind)⟩
        · rw [List.getElem?_set_ne hij] at hw'
          exact hworker j w' hw' p hp
      · intro e he
        have hne := hnosent (by omega) e he
        rcases hdone e he with ⟨w', hw', hpc'⟩
        exact ⟨w', by rwa [List.getElem?_set_ne (by intro hx; exact hne hx.symm)], hpc'⟩
    · rw [if_neg h0]
      by_cases h1 : w.pc = 1
      · rw [if_pos h1]
        cases hf : w.found with
        | some p =>
          refine ⟨?_, ?_, hsent, ?_, hnodup⟩
          · intro q hq
            exact hset q (List.mem_of_mem_erase hq)
          · intro j w' hw' p' hp'
            by_cases hij : i = j
            · subst hij
              rw [List.getElem?_set_self hwlen] at hw'
              cases hw'
              simp only at hp'
              injection hp' with hpp
              subst hpp
              exact hworker i w hw p hf
            · rw [List.getElem?_set_ne hij] at hw'
              exact hworker j w' hw' p' hp'
          · intro e he
            have hne := hnosent (by omega) e he
            rcases hdone e he with ⟨w', hw', hpc'⟩
            exact ⟨w', by rwa [List.getElem?_set_ne (by intro hx; exact hne hx.symm)], hpc'⟩
        | none =>
          refine ⟨hset, ?_, hsent, ?_, hnodup⟩
          · intro j w' hw' p' hp'
            by_cases hij : i = j
            · subst hij
              rw [List.getElem?_set_self hwlen] at hw'
              cases hw'
              cases hp'
            · rw [List.getElem?_set_ne hij] at hw'
              exact hworker j w' hw' p' hp'
          · intro e he
            have hne := hnosent (by omega) e he
            rcases hdone e he with ⟨w', hw', hpc'⟩
            exact ⟨w', by rwa [List.getElem?_set_ne (by intro hx; exact hne hx.symm)], hpc'⟩
      · rw [if_neg h1]
        by_cases h2 : w.pc = 2
        · rw [if_pos h2]
          cases hf : w.found with
          | some p =>
            have hpmem := hworker i w hw p hf
            have hfresh : ∀ e ∈ s.sent, e.1 ≠ i := hnosent (by omega)
            refine ⟨hset, ?_, ?_, ?_, ?_⟩
            · intro j w' hw' p' hp'
              by_cases hij : i = j
              · subst hij
                rw [List.getElem?_set_self hwlen] at hw'
                cases hw'
                simp only at hp'
                injection hp' with hpp
                subst hpp
                exact hworker i w hw p hf
              · rw [List.getElem?_set_ne hij] at hw'
                exact hworker j w' hw' p' hp'
            · intro e he
              rcases List.mem_append.mp he with h | h
              · exact hsent e h
              · rcases List.mem_singleton.mp h with rfl
                exact hpmem
            · intro e he
              rcases List.mem_append.mp he with h | h
              · have hne := hfresh e h
                rcases hdone e h with ⟨w', hw', hpc'⟩
                exact ⟨w', by rwa [List.getElem?_set_ne (by intro hx; exact hne hx.symm)], hpc'⟩
              · rcases List.mem_singleton.mp h with rfl
                exact ⟨⟨3, some p⟩, by rw [List.getElem?_set_self hwlen], rfl⟩
            · rw [List.map_append]
              rw [List.nodup_append]
              refine ⟨hnodup, List.nodup_singleton i, ?_⟩
              intro a ha hb
              rcases List.mem_singleton.mp (by simpa using hb) with rfl
              rcases List.mem_map.mp ha with ⟨e, he, hfst⟩
              exact hfresh e he hfst
          | none =>
            refine ⟨hset, ?_, hsent, ?_, hnodup⟩
            · intro j w' hw' p' hp'
              by_cases hij : i = j
              · subst hij
                rw [List.getElem?_set_self hwlen] at hw'
                cases hw'
                cases hp'
              · rw [List.getElem?_set_ne hij] at hw'
                exact hworker j w' hw' p' hp'
            · intro e he
              have hne := hnosent (by omega) e he
              rcases hdone e he with ⟨w', hw', hpc'⟩
              exact ⟨w', by rwa [List.getElem?_set_ne (by intro hx; exact hne hx.symm)], hpc'⟩
        · rw [if_neg h2]
          exact ⟨hset, hworker, hsent, hdone, hnodup⟩

theorem claimInv_run (cands init : List Str) (sched : List Nat) :
    ClaimInv cands init (claimRun cands init sched) := by
  unfold claimRun
  have : ∀ (l : List Nat) (s : ClaimState), ClaimInv cands init s →
      ClaimInv cands init (l.foldl (claimStep cands) s) := by
    intro l
    induction l with
    | nil => intro s hs; exact hs
    | cons a l ih =>
      intro s hs
      exact ih _ (claimInv_step cands init s a hs)
  exact this sched _ (claimInv_init cands init)

/-! ## The GPU progress trace (`cuda.rs` lines 150-173 and 375)

GPU workers only ever add `threads * blocks` to the shared counter once per
batch; the progress thread reads the current value into each sample.  A
trace interleaves these two kinds of action arbitrarily. -/

inductive GpuOp where
  | batch (threads blocks : Nat)
  | sample

def gpuCounterTrace : Nat × List Nat → List GpuOp → Nat × List Nat
  | st, [] => st
  | (c, samples), GpuOp.batch t b :: rest => gpuCounterTrace (cudaBatchExamined t b c, samples) rest
  | (c, samples), GpuOp.sample :: rest => gpuCounterTrace (c, samples ++ [c]) rest

theorem gpuCounterTrace_chain (ops : List GpuOp) (c : Nat) (samples : List Nat)
    (hch : List.Chain' (· ≤ ·) samples) (hub : ∀ s ∈ samples, s ≤ c) :
    List.Chain' (· ≤ ·) (gpuCounterTrace (c, samples) ops).2 := by
  induction ops generalizing c samples with
  | nil => exact hch
  | cons op rest ih =>
    cases op with
    | batch t b =>
      refine ih (cudaBatchExamined t b c) samples hch ?_
      intro s hs
      have := hub s hs
      unfold cudaBatchExamined
      omega
    | sample =>
      refine ih c (samples ++ [c]) ?_ ?_
      · rw [List.chain'_append]
        refine ⟨hch, List.chain'_singleton c, ?_⟩
        intro x hx y hy
        rcases List.head?_eq_some_iff.mp hy with ⟨t, ht⟩
        cases ht
        exact hub x (List.mem_of_mem_getLast? hx)
      · intro s hs
        rcases List.mem_append.mp hs with h | h
        · exact hub s h
        · rcases List.mem_singleton.mp h with rfl
          exact le_rfl

theorem cpuBatchFold_spec (containsWords outputDir : List Str)
    (batch : List Candidate) (st : CpuState) :
    ((batch.foldl (cpuBatchStep containsWords outputDir) st).samples = st.samples) ∧
    st.counter ≤ (batch.foldl (cpuBatchStep containsWords outputDir) st).counter := by
  induction batch generalizing st with
  | nil => exact ⟨rfl, le_refl _⟩
  | cons c batch ih =>
    have hstep : (cpuBatchStep containsWords outputDir st c).samples = st.samples ∧
        st.counter ≤ (cpuBatchStep containsWords outputDir st c).counter := by
      unfold cpuBatchStep
      by_cases h : st.stopped
      · rw [if_pos h]
        exact ⟨rfl, le_refl _⟩
      · rw [if_neg h]
        exact ⟨rfl, Nat.le_succ _⟩
    rcases ih (cpuBatchStep containsWords outputDir st c) with ⟨hs, hc⟩
    simp only [List.foldl_cons]
    exact ⟨hs.trans hstep.1, hstep.2.trans hc⟩

theorem cpuLoop_samples_chain (containsWords outputDir : List Str)
    (iters : List CpuIter) (st : CpuState)
    (hch : List.Chain' (· ≤ ·) st.samples) (hub : ∀ s ∈ st.samples, s ≤ st.counter) :
    List.Chain' (· ≤ ·) (cpuLoop containsWords outputDir st iters).samples := by
  induction iters generalizing st with
  | nil => exact hch
  | cons it rest ih =>
    unfold cpuLoop
    by_cases h1 : it.stopSignal
    · rw [if_pos h1]
      exact hch
    · rw [if_neg h1]
      by_cases h2 : st.stopped
      · rw [if_pos h2]
        exact hch
      · rw [if_neg h2]
        by_cases h3 : st.remaining.isEmpty
        · rw [if_pos h3]
          exact hch
        · rw [if_neg h3]
          rcases cpuBatchFold_spec containsWords outputDir it.batch st with ⟨hs, hc⟩
          refine ih _ ?_ ?_
          · simp only
            rw [hs]
            rw [List.chain'_append]
            refine ⟨hch, List.chain'_singleton _, ?_⟩
            intro x hx y hy
            rcases List.head?_eq_some_iff.mp hy with ⟨t, ht⟩
            cases ht
            exact (hub x (List.mem_of_mem_getLast? hx)).trans hc
          · intro s hs'
            simp only at hs'
            rw [hs] at hs'
            rcases List.mem_append.mp hs' with h | h
            · exact (hub s h).trans hc
            · rcases List.mem_singleton.mp h with rfl
              exact le_refl _

/-- C9: within one run, the `keys_checked` of successive progress samples is
monotone non-decreasing: the CPU backend's shared counter is incremented by
one per candidate and each sample reads the current value
(`cpu.rs` lines 206-222), and a GPU worker's counter only grows by
`threads * blocks` per batch while the progress thread samples it
(`cuda.rs` lines 150-173, 375). -/
theorem progress_samples_monotone :
    (∀ (ps containsWords outputDir : List Str) (iters : List CpuIter),
      List.Chain' (· ≤ ·)
        (cpuLoop containsWords outputDir (initCpuState ps) iters).samples) ∧
    (∀ ops : List GpuOp, List.Chain' (· ≤ ·) (gpuCounterTrace (0, []) ops).2) := by
  constructor
  · intro ps containsWords outputDir iters
    exact cpuLoop_samples_chain containsWords outputDir iters (initCpuState ps)
      (by simp [initCpuState]) (by simp [initCpuState])
  · intro ops
    exact gpuCounterTrace_chain ops 0 [] (by simp) (by simp)

/-- C2: `pubkey_to_onion` of a 32-byte public key is the 56-character base32
name of `pubkey || checksum || 3` followed by `".onion"` (62 characters in
all), the name decodes back to those 35 bytes, and the checksum is the
first two bytes of `SHA3-256(".onion checksum" || pubkey || 3)`. -/
theorem pubkey_to_onion_spec (x : List Nat) (hlen : x.length = 32)
    (hlt : ∀ b ∈ x, b < 256) :
    pubkey_to_onion x = onionName x ++ ".onion".toList ∧
    (onionName x).length = 56 ∧
    (pubkey_to_onion x).length = 62 ∧
    b32Decode (onionName x) = some (x ++ onionChecksum x ++ [3]) ∧
    onionChecksum x = (sha3_256 (onionChecksumTag ++ x ++ [3])).take 2 :=
  ⟨rfl, onionName_length x hlen, pubkey_to_onion_length x hlen,
    onionName_decode x hlen hlt, rfl⟩

theorem pubkey_to_onion_spec_witness :
    pubkey_to_onion (List.replicate 32 0) = onionName (List.replicate 32 0) ++ ".onion".toList ∧
    (onionName (List.replicate 32 0)).length = 56 ∧
    (pubkey_to_onion (List.replicate 32 0)).length = 62 ∧
    b32Decode (onionName (List.replicate 32 0)) =
      some (List.replicate 32 0 ++ onionChecksum (List.replicate 32 0) ++ [3]) ∧
    onionChecksum (List.replicate 32 0) =
      (sha3_256 (onionChecksumTag ++ List.replicate 32 0 ++ [3])).take 2 :=
  pubkey_to_onion_spec (List.replicate 32 0) (by decide) (by decide)

/-- C8: in Auto mode, selection prefers Hybrid, then CUDA, then the CPU
backend, degrading exactly when the preferred probe fails; it always
produces a backend (falling back to CPU), and the selection function only
builds the choice — it never starts a search. -/
theorem select_backend_auto_spec :
    (∀ (threads : Nat) (cudaProbe : Except Str Unit),
      select_backend_auto true (Except.ok ()) cudaProbe threads = BackendChoice.Hybrid) ∧
    (∀ (threads : Nat) (m : Str),
      select_backend_auto true (Except.error m) (Except.ok ()) threads = BackendChoice.Cuda) ∧
    (∀ (threads : Nat) (m1 m2 : Str),
      select_backend_auto true (Except.error m1) (Except.error m2) threads =
        BackendChoice.Cpu threads) ∧
    (∀ (threads : Nat) (hybridProbe cudaProbe : Except Str Unit),
      select_backend_auto false hybridProbe cudaProbe threads = BackendChoice.Cpu threads) :=
  ⟨fun _ _ => rfl, fun _ _ => rfl, fun _ _ _ => rfl, fun _ _ _ => rfl⟩

/-- C1 (amended): claim is two-phase, not atomic.  What does hold: every
`FoundKey` sent carries a pattern that matches the sending worker's own
candidate and was in the initial target set, and each worker sends at most
once (the worker indices among the sends are distinct) — so duplicates are
bounded by the number of workers whose candidates match, but a pattern may
be delivered more than once (see the counterexample). -/
theorem claim_sends_bounded (cands init : List Str) (sched : List Nat) :
    (∀ e ∈ (claimRun cands init sched).sent,
      e.2.isPrefixOf (cands.getD e.1 []) = true ∧ e.2 ∈ init) ∧
    ((claimRun cands init sched).sent.map Prod.fst).Nodup := by
  have h := claimInv_run cands init sched
  exact ⟨h.2.2.1, h.2.2.2.2⟩

/-- C1 is false as stated: with two workers whose candidates both match the
single pattern `"aa"` (both drew the all-zero seed), the schedule that runs
both scans before either removal delivers two `FoundKey`s for the pattern. -/
theorem claim_duplicate_sends :
    ((claimRun
        [pubkey_to_onion (List.replicate 32 0), pubkey_to_onion (List.replicate 32 0)]
        [['a', 'a']] [0, 1, 0, 1, 0, 1]).sent.map Prod.snd).count ['a', 'a'] = 2 := by
  obtain ⟨t, ht⟩ := onionZero_head
  rw [ht]
  simp [claimRun, initClaimState, claimStep, findMatch, List.isPrefixOf]

/-- The all-zero 32-byte value, used as a concrete seed and public key. -/
def zeroKey : List Nat := List.replicate 32 0

theorem onionZeroKey_head :
    ∃ t, pubkey_to_onion zeroKey =
      'a' :: 'a' :: 'a' :: 'a' :: 'a' :: 'a' :: 'a' :: 'a' :: t := by
  unfold zeroKey
  exact onionZero_head

theorem findMatch_zeroKey_aa :
    findMatch [['a', 'a']] (pubkey_to_onion zeroKey) = some ['a', 'a'] := by
  obtain ⟨t, ht⟩ := onionZeroKey_head
  unfold findMatch
  rw [ht]
  simp [List.isPrefixOf]

theorem cpuCandidate_zeroKey_aa (outputDir : List Str) (fs : FsOutcome) :
    cpuCandidate [] outputDir [['a', 'a']] zeroKey zeroKey fs =
      ([], cpuHitEvents outputDir zeroKey zeroKey ['a', 'a'] fs) := by
  simp only [cpuCandidate]
  rw [findMatch_zeroKey_aa]
  simp [applyContains]

/-- C5 is false as stated for the CPU backend: one candidate satisfies the
only pattern `"aa"` in the first iteration, the stop signal is consumed in
the second, and the run returns `Stopped` although the target set is
already empty — the CPU backend's final check ignores the remaining set. -/
theorem cpu_stopped_after_satisfied :
    (cpu_generate [['a', 'a']] [] []
        [⟨false, [⟨zeroKey, zeroKey, FsOutcome.allOk⟩]⟩, ⟨true, []⟩]).1 =
      Except.error GeneratorError.Stopped ∧
    (cpu_generate [['a', 'a']] [] []
        [⟨false, [⟨zeroKey, zeroKey, FsOutcome.allOk⟩]⟩, ⟨true, []⟩]).2.remaining = [] := by
  have hv : findInvalid [['a', 'a']] = none := by decide
  constructor <;>
    simp [cpu_generate, hv, cpuLoop, cpuBatchStep, cpuCandidate_zeroKey_aa, initCpuState]

/-- C5 (amended): the CUDA and hybrid backends return success after a stop
whenever the target set is already empty and `Stopped` otherwise (absent a
device error); the CPU backend instead returns `Stopped` exactly when its
stop flag was set, even if the target set was already fully satisfied. -/
theorem stop_result_by_backend :
    (∀ remaining : List Str,
      cuda_final_result none true remaining =
        (if remaining.isEmpty then Except.ok () else Except.error GeneratorError.Stopped)) ∧
    (∀ remaining : List Str,
      hybrid_final_result true remaining =
        (if remaining.isEmpty then Except.ok () else Except.error GeneratorError.Stopped)) ∧
    (∀ (ps containsWords outputDir : List Str) (iters : List CpuIter),
      findInvalid ps = none →
      ((cpu_generate ps containsWords outputDir iters).1 =
          Except.error GeneratorError.Stopped ↔
        (cpuLoop containsWords outputDir (initCpuState ps) iters).stopped = true)) := by
  refine ⟨?_, ?_, ?_⟩
  · intro remaining
    unfold cuda_final_result
    cases h : remaining.isEmpty <;> simp [h]
  · intro remaining
    unfold hybrid_final_result
    cases h : remaining.isEmpty <;> simp [h]
  · intro ps containsWords outputDir iters hv
    unfold cpu_generate
    rw [hv]
    cases h : (cpuLoop containsWords outputDir (initCpuState ps) iters).stopped <;>
      simp [h]

theorem stop_result_by_backend_witness :
    (cpu_generate [['a', 'a']] [] [] []).1 = Except.error GeneratorError.Stopped ↔
      (cpuLoop [] [] (initCpuState [['a', 'a']]) []).stopped = true :=
  stop_result_by_backend.2.2 [['a', 'a']] [] [] [] (by decide)

/-- C10: in the CPU worker body the pattern is removed from the remaining
set before any file I/O; when `create_dir_all` fails the hit produces no
events (so no `FoundKey`), and once the loop ends unstopped the run still
returns `Ok` — a run can succeed with fewer `FoundKey`s than patterns. -/
theorem cpu_hit_lost_on_io_failure :
    (∀ (containsWords outputDir remaining : List Str) (seed pubkey : List Nat)
        (fs : FsOutcome) (pfx : Str),
      fs.mkdirOk = false →
      applyContains containsWords (pubkey_to_onion pubkey)
        (findMatch remaining (pubkey_to_onion pubkey)) = some pfx →
      cpuCandidate containsWords outputDir remaining seed pubkey fs =
        (remaining.erase pfx, [])) ∧
    (∀ (ps containsWords outputDir : List Str) (iters : List CpuIter),
      findInvalid ps = none →
      (cpuLoop containsWords outputDir (initCpuState ps) iters).stopped = false →
      (cpu_generate ps containsWords outputDir iters).1 = Except.ok ()) := by
  constructor
  · intro containsWords outputDir remaining seed pubkey fs pfx hmk happ
    simp only [cpuCandidate]
    rw [happ]
    simp [cpuHitEvents, hmk]
  · intro ps containsWords outputDir iters hv hst
    unfold cpu_generate
    rw [hv]
    simp [hst]

theorem cpu_hit_lost_on_io_failure_witness :
    cpuCandidate [] [] [['a', 'a']] zeroKey zeroKey ⟨false, true, true, true⟩ =
      ([['a', 'a']].erase ['a', 'a'], []) ∧
    (cpu_generate [['a', 'a']] [] [] []).1 = Except.ok () := by
  constructor
  · refine cpu_hit_lost_on_io_failure.1 [] [] [['a', 'a']] zeroKey zeroKey
      ⟨false, true, true, true⟩ ['a', 'a'] rfl ?_
    rw [findMatch_zeroKey_aa]
    simp [applyContains]
  · exact cpu_hit_lost_on_io_failure.2 [['a', 'a']] [] [] [] (by decide) rfl

/-- C7 is false as stated: a 13-character pattern exceeds the spec's length
cap of 12, yet `generate` accepts it — validation is base32-decode only,
and the run proceeds (returning success on an empty iteration list). -/
theorem length_cap_not_enforced :
    12 < (List.replicate 13 'a').length ∧
    (cpu_generate [List.replicate 13 'a'] [] [] []).1 = Except.ok () := by
  constructor
  · decide
  · have hv : findInvalid [List.replicate 13 'a'] = none := by decide
    unfold cpu_generate
    rw [hv]
    rfl

theorem b32Val_isSome_iff (c : Char) : (b32Val c).isSome = true ↔ c ∈ b32Alphabet := by
  unfold b32Val
  constructor
  · intro h
    by_contra hmem
    have hnone : b32Alphabet.indexOf? c = none :=
      List.indexOf?_eq_none_iff.mpr (fun x hx hbeq => hmem (eq_of_beq hbeq ▸ hx))
    rw [hnone] at h
    cases h
  · intro hmem
    cases hi : b32Alphabet.indexOf? c with
    | some v => rfl
    | none =>
      exfalso
      exact (List.indexOf?_eq_none_iff.mp hi c hmem) (by simp)

theorem mapM_isSome (f : Char → Option Nat) (s : List Char) :
    (s.mapM f).isSome = s.all (fun c => (f c).isSome) := by
  induction s with
  | nil => rfl
  | cons c s ih =>
    rw [List.mapM_cons]
    cases hc : f c with
    | none => simp [hc]
    | some v =>
      cases hs : s.mapM f with
      | none =>
        rw [List.all_cons, ← ih, hs]
        simp [hc]
      | some l =>
        rw [List.all_cons, ← ih, hs]
        simp [hc]

theorem b32Decode_isSome_iff (s : List Char) :
    (b32Decode s).isSome = true ↔ ∀ c ∈ s, c ∈ b32Alphabet := by
  unfold b32Decode
  rw [Option.isSome_map', mapM_isSome, List.all_eq_true]
  constructor
  · intro h c hc
    exact (b32Val_isSome_iff c).mp (h c hc)
  · intro h c hc
    exact (b32Val_isSome_iff c).mpr (h c hc)

theorem prefixValid_iff (p : Str) :
    prefixValid p = true ↔ ∀ c ∈ p, c ∈ b32Alphabet := by
  unfold prefixValid
  rw [b32Decode_isSome_iff]
  constructor
  · intro h c hc
    exact h c (List.mem_append_left _ hc)
  · intro h c hc
    rcases List.mem_append.mp hc with h1 | h1
    · exact h c h1
    · simp at h1
      subst h1
      decide

/-- C7 (amended): validation is exactly base32 decodability (attempted on the
pattern with `"aa"` appended) — no length cap exists; a pattern with a
character outside `a-z2-7` makes `generate` return `InvalidPrefix` with the
offending pattern immediately, with the state untouched (no worker, no
candidate, no event). -/
theorem validation_decode_only :
    (∀ (ps containsWords outputDir : List Str) (iters : List CpuIter) (p : Str),
      findInvalid ps = some p →
      cpu_generate ps containsWords outputDir iters =
        (Except.error (GeneratorError.InvalidPrefix p), initCpuState ps)) ∧
    (∀ p : Str, prefixValid p = true ↔ ∀ c ∈ p, c ∈ b32Alphabet) := by
  constructor
  · intro ps containsWords outputDir iters p h
    unfold cpu_generate
    rw [h]
  · exact prefixValid_iff

theorem validation_decode_only_witness :
    cpu_generate [['!']] [] [] [] =
      (Except.error (GeneratorError.InvalidPrefix ['!']), initCpuState [['!']]) :=
  validation_decode_only.1 [['!']] [] [] [] ['!'] (by decide)

/-- C6 is false as stated: the host-derived onion address of the all-zero
device output does not start with the pattern `"bb"`, yet the hit is not
discarded — the pattern is removed from the remaining set and the write
and send still happen. -/
theorem cuda_unverified_hit_published :
    (['b', 'b'].isPrefixOf (pubkey_to_onion zeroKey) = false) ∧
    (cudaProcessHit [['b', 'b']] 0 zeroKey zeroKey [['b', 'b']] [] true).1 = [] ∧
    (cudaProcessHit [['b', 'b']] 0 zeroKey zeroKey [['b', 'b']] [] true).2 ≠ [] := by
  refine ⟨?_, ?_, ?_⟩
  · obtain ⟨t, ht⟩ := onionZeroKey_head
    rw [ht]
    simp [List.isPrefixOf]
  · rfl
  · simp [cudaProcessHit, cudaHitEvents]

/-- C6 (amended): every device-reported hit is re-derived on the host, but
never re-verified: even when the re-derived address does not satisfy
`prefixes[i]`, the pattern is removed from the remaining set, the key file
is written and the `FoundKey` is sent; the examined counter still advances
by `threads * blocks` per batch regardless of hits. -/
theorem cuda_hit_claims_unverified :
    ∀ (prefixes : List Str) (i : Nat) (outBytes pubkey : List Nat)
      (remaining outputDir : List Str),
      (prefixes.getD i []).isPrefixOf (pubkey_to_onion pubkey) = false →
      cudaProcessHit prefixes i outBytes pubkey remaining outputDir true =
        (remaining.erase (prefixes.getD i []),
         [FsEvent.write (outputDir ++ [pubkey_to_onion pubkey])
            (FILE_PREFIX ++ to_keypair_bytes outBytes pubkey),
          FsEvent.send (prefixes.getD i []) (pubkey_to_onion pubkey)
            (outputDir ++ [pubkey_to_onion pubkey])]) ∧
      (∀ threads blocks counter : Nat,
        cudaBatchExamined threads blocks counter = counter + threads * blocks) := by
  intro prefixes i outBytes pubkey remaining outputDir hmiss
  exact ⟨rfl, fun _ _ _ => rfl⟩

theorem cuda_hit_claims_unverified_witness :
    cudaProcessHit [['b', 'b']] 0 zeroKey zeroKey [['b', 'b']] [] true =
      ([['b', 'b']].erase ([['b', 'b']].getD 0 []),
       [FsEvent.write ([] ++ [pubkey_to_onion zeroKey])
          (FILE_PREFIX ++ to_keypair_bytes zeroKey zeroKey),
        FsEvent.send ([['b', 'b']].getD 0 []) (pubkey_to_onion zeroKey)
          ([] ++ [pubkey_to_onion zeroKey])]) ∧
    (∀ threads blocks counter : Nat,
      cudaBatchExamined threads blocks counter = counter + threads * blocks) :=
  cuda_hit_claims_unverified [['b', 'b']] 0 zeroKey zeroKey [['b', 'b']] []
    (by obtain ⟨t, ht⟩ := onionZeroKey_head; rw [ht]; simp [List.isPrefixOf])

theorem dot_not_mem_onionName (pubkey : List Nat) : '.' ∉ onionName pubkey := by
  intro h
  have hmem : ('.' : Char) ∈ b32Alphabet :=
    b32Encode_mem_alphabet _ '.' (by simpa [onionName] using h)
  exact absurd hmem (by decide)

theorem trimOnionSuffix_append (name : Str) (hnd : '.' ∉ name) :
    trimOnionSuffix (name ++ ".onion".toList) = name := by
  rw [trimOnionSuffix]
  rw [dif_pos (List.isSuffixOf_iff_suffix.mpr (List.suffix_append _ _))]
  have hlen : (name ++ ".onion".toList).length - 6 = name.length := by simp
  rw [hlen, List.take_left]
  rw [trimOnionSuffix]
  rw [dif_neg]
  intro hsuf
  exact hnd ((List.isSuffixOf_iff_suffix.mp hsuf).subset (by decide))

theorem trimOnion_pubkey (pubkey : List Nat) :
    trimOnionSuffix (pubkey_to_onion pubkey) = onionName pubkey := by
  have heq : pubkey_to_onion pubkey = onionName pubkey ++ ".onion".toList := rfl
  rw [heq, trimOnionSuffix_append _ (dot_not_mem_onionName pubkey)]

/-- C3 is false as stated: in the hybrid backend's CPU worker, no file named
`hs_ed25519_secret_key` is written at all for a found key — the single file
written is named after the full onion address. -/
theorem hybrid_secret_key_file_missing :
    ¬ ∃ (path : List Str) (content : List Nat),
        FsEvent.write path content ∈ hybridHitEvents [] zeroKey zeroKey ['a', 'a'] true ∧
        path.getLastD [] = "hs_ed25519_secret_key".toList := by
  rintro ⟨path, content, hmem, hlast⟩
  simp only [hybridHitEvents, if_pos, List.mem_cons, List.mem_singleton,
    List.not_mem_nil, or_false] at hmem
  rcases hmem with h | h
  · rw [FsEvent.write.injEq] at h
    rcases h with ⟨hpath, _⟩
    rw [hpath] at hlast
    have hlast' : pubkey_to_onion zeroKey = "hs_ed25519_secret_key".toList := by
      simpa [List.getLastD] using hlast
    have h62 : (pubkey_to_onion zeroKey).length = 62 :=
      pubkey_to_onion_length _ (by simp [zeroKey])
    have := congrArg List.length hlast'
    rw [h62] at this
    exact absurd this (by decide)
  · cases h

/-- C3 (amended): only the CPU backend writes `hs_ed25519_secret_key` as the
32-byte tag followed by the clamped 64-byte `SHA-512(seed)`; the CUDA and
hybrid backends write a single file named after the full onion address
whose content is the tag followed by `to_keypair_bytes` (the 32 seed or
device-output bytes, then the 32 public-key bytes). -/
theorem secret_key_file_by_backend :
    (∀ (outputDir : List Str) (seed pubkey : List Nat) (pfx : Str) (fs : FsOutcome),
      fs.mkdirOk = true → fs.secOk = true →
      FsEvent.write ((outputDir ++ [trimOnionSuffix (pubkey_to_onion pubkey)]) ++
          ["hs_ed25519_secret_key".toList])
        (FILE_PREFIX ++ torExpandedSecret seed) ∈
        cpuHitEvents outputDir seed pubkey pfx fs) ∧
    FILE_PREFIX.length = 32 ∧
    (∀ seed : List Nat, (torExpandedSecret seed).length = 64) ∧
    (∀ (outputDir : List Str) (seed pubkey : List Nat) (pfx : Str),
      hybridHitEvents outputDir seed pubkey pfx true =
        [FsEvent.write (outputDir ++ [pubkey_to_onion pubkey])
           (FILE_PREFIX ++ (seed ++ pubkey)),
         FsEvent.send pfx (pubkey_to_onion pubkey) (outputDir ++ [pubkey_to_onion pubkey])]) ∧
    (∀ (outputDir : List Str) (outBytes pubkey : List Nat) (pfx : Str),
      cudaHitEvents outputDir outBytes pubkey pfx true =
        [FsEvent.write (outputDir ++ [pubkey_to_onion pubkey])
           (FILE_PREFIX ++ (outBytes ++ pubkey)),
         FsEvent.send pfx (pubkey_to_onion pubkey) (outputDir ++ [pubkey_to_onion pubkey])]) := by
  refine ⟨?_, FILE_PREFIX_length, torExpandedSecret_length, fun _ _ _ _ => rfl, fun _ _ _ _ => rfl⟩
  intro outputDir seed pubkey pfx fs hmk hsec
  simp [cpuHitEvents, hmk, hsec]

theorem secret_key_file_by_backend_witness :
    FsEvent.write (([] ++ [trimOnionSuffix (pubkey_to_onion zeroKey)]) ++
        ["hs_ed25519_secret_key".toList])
      (FILE_PREFIX ++ torExpandedSecret zeroKey) ∈
      cpuHitEvents [] zeroKey zeroKey ['a', 'a'] FsOutcome.allOk :=
  secret_key_file_by_backend.1 [] zeroKey zeroKey ['a', 'a'] FsOutcome.allOk rfl rfl

/-- C4 is false as stated: a CUDA-backend found key produces a `FoundKey`
send, but no `hostname` file (nor any directory layout) is ever written —
the only write is the single key file named after the full onion address. -/
theorem cuda_artifact_not_directory :
    (∃ pfx onion kp, FsEvent.send pfx onion kp ∈
      (cudaProcessHit [['a', 'a']] 0 zeroKey zeroKey [['a', 'a']] [] true).2) ∧
    ¬ ∃ (path : List Str) (content : List Nat),
        FsEvent.write path content ∈
          (cudaProcessHit [['a', 'a']] 0 zeroKey zeroKey [['a', 'a']] [] true).2 ∧
        path.getLastD [] = "hostname".toList := by
  constructor
  · refine ⟨[['a', 'a']].getD 0 [], pubkey_to_onion zeroKey, [] ++ [pubkey_to_onion zeroKey], ?_⟩
    simp [cudaProcessHit, cudaHitEvents]
  · rintro ⟨path, content, hmem, hlast⟩
    simp only [cudaProcessHit, cudaHitEvents, if_pos, List.mem_cons, List.mem_singleton,
      List.not_mem_nil, or_false] at hmem
    rcases hmem with h | h
    · rw [FsEvent.write.injEq] at h
      rcases h with ⟨hpath, _⟩
      rw [hpath] at hlast
      have hlast' : pubkey_to_onion zeroKey = "hostname".toList := by
        simpa [List.getLastD] using hlast
      have h62 : (pubkey_to_onion zeroKey).length = 62 :=
        pubkey_to_onion_length _ (by simp [zeroKey])
      have := congrArg List.length hlast'
      rw [h62] at this
      exact absurd this (by decide)
    · cases h

/-- C4 (amended): only the CPU backend materializes the directory layout —
with all file-system calls succeeding, its hit events are exactly the
directory creation, the `hostname`, `hs_ed25519_public_key` and
`hs_ed25519_secret_key` writes, the `authorized_clients` directory, and
then the send, in this order, under the directory named by the onion
address without `.onion` (the 56-character name); the CUDA and hybrid
backends write one key file named after the full onion address and send. -/
theorem artifact_layout_by_backend :
    (∀ (outputDir : List Str) (seed pubkey : List Nat) (pfx : Str),
      cpuHitEvents outputDir seed pubkey pfx FsOutcome.allOk =
        [FsEvent.mkdirAll (outputDir ++ [trimOnionSuffix (pubkey_to_onion pubkey)]),
         FsEvent.write ((outputDir ++ [trimOnionSuffix (pubkey_to_onion pubkey)]) ++
             ["hostname".toList]) (hostnameContent (pubkey_to_onion pubkey)),
         FsEvent.write ((outputDir ++ [trimOnionSuffix (pubkey_to_onion pubkey)]) ++
             ["hs_ed25519_public_key".toList]) (PUBKEY_PREFIX ++ pubkey),
         FsEvent.write ((outputDir ++ [trimOnionSuffix (pubkey_to_onion pubkey)]) ++
             ["hs_ed25519_secret_key".toList]) (FILE_PREFIX ++ torExpandedSecret seed),
         FsEvent.mkdirAll ((outputDir ++ [trimOnionSuffix (pubkey_to_onion pubkey)]) ++
             ["authorized_clients".toList]),
         FsEvent.send pfx (pubkey_to_onion pubkey)
           (outputDir ++ [trimOnionSuffix (pubkey_to_onion pubkey)])]) ∧
    (∀ pubkey : List Nat, trimOnionSuffix (pubkey_to_onion pubkey) = onionName pubkey) ∧
    (∀ (outputDir : List Str) (seed pubkey : List Nat) (pfx : Str),
      hybridHitEvents outputDir seed pubkey pfx true =
        [FsEvent.write (outputDir ++ [pubkey_to_onion pubkey])
           (FILE_PREFIX ++ (seed ++ pubkey)),
         FsEvent.send pfx (pubkey_to_onion pubkey)
           (outputDir ++ [pubkey_to_onion pubkey])]) :=
  ⟨fun _ _ _ _ => rfl, trimOnion_pubkey, fun _ _ _ _ => rfl⟩
